import Mathlib

/-!
Verification of the DayGrid core (src/src/App.tsx) against its
natural-language specification.

The TypeScript source is shallowly embedded: each relevant function of
App.tsx is translated into a Lean definition of the same name, with
JavaScript numbers modelled as Nat / Int / Rat as appropriate, JavaScript
string | null slot entries modelled as Option String, and JavaScript Map
objects modelled as insertion-ordered association lists.  Falsiness of a
slot value (null, undefined or the empty string) is modelled explicitly.
-/

namespace DayGrid

/-! ### Number formatting and parsing

JavaScript's String(n) and Number(s) as used by pad2, toDateKey,
hmToMinutes and the dateKey parser.  Digits are produced by a
fuel-indexed structural recursion so that all definitions reduce in the
kernel. -/

/-- Decimal digit character for a digit value, as produced by JavaScript
number-to-string conversion. -/
def digitChar (d : Nat) : Char :=
  Char.ofNat (48 + d)

/-- Little-endian decimal digits of a natural number; the fuel argument
makes the recursion structural.  Fuel n+1 is always sufficient. -/
def natDigitsFuel : Nat → Nat → List Nat
  | 0, _ => []
  | fuel + 1, n => if n = 0 then [] else n % 10 :: natDigitsFuel fuel (n / 10)

/-- Value of a little-endian digit list. -/
def ofDigitsLE : List Nat → Nat
  | [] => 0
  | d :: ds => d + 10 * ofDigitsLE ds

/-- Embedding of JavaScript String(n) for a non-negative number. -/
def natRepr (n : Nat) : String :=
  if n = 0 then ("0") else String.mk (((natDigitsFuel (n + 1) n).reverse).map digitChar)

/-- Embedding of JavaScript String(n) for a possibly negative integer
(as produced by Date.prototype.getFullYear inside toDateKey). -/
def intRepr (i : Int) : String :=
  if i < 0 then ("-") ++ natRepr i.natAbs else natRepr i.toNat

/-- Embedding of pad2 from App.tsx: String(n).padStart(2, "0"). -/
def pad2 (n : Nat) : String :=
  if (natRepr n).length < 2 then ("0") ++ natRepr n else natRepr n

/-- Numeric value of a decimal digit character, as JavaScript Number
computes it for digit strings. -/
def charVal (c : Char) : Nat :=
  c.toNat - 48

/-- Embedding of JavaScript Number(s) restricted to strings of decimal
digits (the only shape the program feeds it). -/
def parseNatChars (cs : List Char) : Nat :=
  cs.foldl (fun a c => a * 10 + charVal c) 0

/-- Parses a digit string to a number, left-to-right. -/
def parseNatStr (s : String) : Nat :=
  parseNatChars s.data

/-- Splitting a character list on a separator character, mirroring
JavaScript String.prototype.split with a one-character separator. -/
def splitCharList (c : Char) : List Char → List (List Char)
  | [] => [[]]
  | x :: xs =>
    if x = c then [] :: splitCharList c xs
    else
      match splitCharList c xs with
      | [] => [[x]]
      | g :: gs => (x :: g) :: gs

/-- Embedding of s.split(sep) for a one-character separator. -/
def splitChar (c : Char) (s : String) : List String :=
  (splitCharList c s.data).map String.mk

/-! #### Correctness of formatting/parsing round trips -/

theorem ofDigitsLE_natDigitsFuel : ∀ fuel n, n < fuel → ofDigitsLE (natDigitsFuel fuel n) = n := by
  intro fuel
  induction fuel with
  | zero => intro n h; omega
  | succ fuel ih =>
    intro n h
    by_cases h0 : n = 0
    · simp [natDigitsFuel, h0, ofDigitsLE]
    · have hlt : n / 10 < fuel := by
        have : n / 10 < n := Nat.div_lt_self (Nat.pos_of_ne_zero h0) (by omega)
        omega
      simp only [natDigitsFuel, h0, if_false, ofDigitsLE, ih _ hlt]
      omega

theorem natDigitsFuel_lt_ten : ∀ fuel n d, d ∈ natDigitsFuel fuel n → d < 10 := by
  intro fuel
  induction fuel with
  | zero => intro n d h; simp [natDigitsFuel] at h
  | succ fuel ih =>
    intro n d h
    by_cases h0 : n = 0
    · simp [natDigitsFuel, h0] at h
    · simp only [natDigitsFuel, h0, if_false, List.mem_cons] at h
      rcases h with h | h
      · omega
      · exact ih _ _ h

theorem charVal_digitChar {d : Nat} (h : d < 10) : charVal (digitChar d) = d := by
  interval_cases d <;> decide

/-- Folding the parser over reversed digits recovers the value. -/
theorem parse_foldl_digits : ∀ ds : List Nat, (∀ d ∈ ds, d < 10) → ∀ a : Nat,
    (ds.reverse.map digitChar).foldl (fun a c => a * 10 + charVal c) a
      = a * 10 ^ ds.length + ofDigitsLE ds := by
  intro ds
  induction ds with
  | nil => intro _ a; simp [ofDigitsLE]
  | cons d ds ih =>
    intro hd a
    have hdlt : d < 10 := hd d (List.mem_cons_self d ds)
    simp only [List.reverse_cons, List.map_append, List.foldl_append, List.map_cons,
      List.map_nil, List.foldl_cons, List.foldl_nil, ofDigitsLE, List.length_cons]
    rw [ih (fun x hx => hd x (List.mem_cons_of_mem d hx)) a, charVal_digitChar hdlt]
    ring

theorem parseNatStr_natRepr (n : Nat) : parseNatStr (natRepr n) = n := by
  by_cases h0 : n = 0
  · subst h0; decide
  · have hlt : n < n + 1 := Nat.lt_succ_self n
    simp only [parseNatStr, natRepr, h0, if_false, parseNatChars]
    show ((natDigitsFuel (n + 1) n).reverse.map digitChar).foldl (fun a c => a * 10 + charVal c) 0 = n
    rw [parse_foldl_digits _ (fun d hd => natDigitsFuel_lt_ten _ _ _ hd) 0]
    simp [ofDigitsLE_natDigitsFuel _ _ hlt]

theorem digitChar_ne (d : Nat) (h : d < 10) (c : Char) (hc : 58 ≤ c.toNat ∨ c.toNat < 48) :
    digitChar d ≠ c := by
  intro he
  have : (digitChar d).toNat = c.toNat := by rw [he]
  have hd : (digitChar d).toNat = 48 + d := by
    interval_cases d <;> decide
  omega

/-- splitCharList leaves a separator-free list whole. -/
theorem splitCharList_no_sep (c : Char) : ∀ xs : List Char, c ∉ xs →
    splitCharList c xs = [xs] := by
  intro xs
  induction xs with
  | nil => intro _; rfl
  | cons x xs ih =>
    intro h
    have hx : ¬(x = c) := fun he => h (by simp [he])
    have hxs : c ∉ xs := fun hm => h (List.mem_cons_of_mem x hm)
    simp [splitCharList, hx, ih hxs]

/-- splitCharList splits off the chunk before the first separator. -/
theorem splitCharList_append (c : Char) : ∀ xs ys : List Char, c ∉ xs →
    splitCharList c (xs ++ c :: ys) = xs :: splitCharList c ys := by
  intro xs
  induction xs with
  | nil => intro ys _; simp [splitCharList]
  | cons x xs ih =>
    intro ys h
    have hx : ¬(x = c) := fun he => h (by simp [he])
    have hxs : c ∉ xs := fun hm => h (List.mem_cons_of_mem x hm)
    have hih := ih ys hxs
    simp only [List.cons_append, splitCharList, hx, if_false]
    rw [show xs.append (c :: ys) = xs ++ c :: ys from rfl, hih]

/-! ### Time grid model (App.tsx lines 34-71)

SLOT_MINUTES = 15, TOTAL_SLOTS = 96, START_HOUR = 8. -/

/-- Embedding of slotToTime from App.tsx. -/
def slotToTime (slotIndex : Nat) : String :=
  let totalMinutes := slotIndex * 15
  let h := totalMinutes / 60
  let min := totalMinutes % 60
  let displayHour := (8 + h) % 24
  pad2 displayHour ++ (":") ++ pad2 min

/-- Embedding of hmToMinutes from App.tsx: hm.split(":").map(Number)
destructured into hours and minutes. -/
def hmToMinutes (hm : String) : Nat :=
  let parts := (splitChar ':' hm).map parseNatStr
  parts.getD 0 0 * 60 + parts.getD 1 0

/-- Modelled from the spec: timeToSlot, named by spec sections 4.1 and 8 as
the inverse of slotToTime, is not present in src/.  Per the spec mapping
slot-to-time = (dayStartHour*60 + index*15) mod 1440 with dayStartHour = 8,
its inverse sends a clock time to the slot whose boundary it is. -/
def timeToSlot (hm : String) : Nat :=
  (hmToMinutes hm + 1440 - 8 * 60) % 1440 / 15

/-- Clock time of minute-of-day m rendered as zero-padded HH:MM; this is
the spec's wording of the slot-to-time format, used to compare slotToTime
against the spec. -/
def specClockHHMM (m : Nat) : String :=
  pad2 (m / 60) ++ (":") ++ pad2 (m % 60)

example : slotToTime 0 = ("08:00") := by decide
example : slotToTime 95 = ("07:45") := by decide
example : timeToSlot ("08:00") = 0 := by decide

/-- C4: for every slot index i in [0,96), slotToTime i is the clock time
(8*60 + i*15) mod 1440 rendered as zero-padded HH:MM, the mapping is
injective on [0,96) (hence a bijection onto the 96 quarter-hour boundaries
of the 08:00-to-08:00 day, which are exactly its values), and
timeToSlot (slotToTime i) = i. -/
theorem slotToTime_spec_and_roundtrip :
    (∀ i < 96, slotToTime i = specClockHHMM ((8 * 60 + i * 15) % 1440) ∧
      timeToSlot (slotToTime i) = i) ∧
    Set.InjOn slotToTime (Set.Iio (96 : Nat)) := by
  have h : ∀ i < 96, slotToTime i = specClockHHMM ((8 * 60 + i * 15) % 1440) ∧
      timeToSlot (slotToTime i) = i := by decide
  refine ⟨h, ?_⟩
  intro i hi j hj he
  have hi' : timeToSlot (slotToTime i) = i := (h i hi).2
  have hj' : timeToSlot (slotToTime j) = j := (h j hj).2
  rw [← hi', ← hj', he]

/-- C4 witness: the theorem instantiated at slot 3. -/
theorem slotToTime_spec_and_roundtrip_witness :
    slotToTime 3 = specClockHHMM ((8 * 60 + 3 * 15) % 1440) ∧
      timeToSlot (slotToTime 3) = 3 :=
  slotToTime_spec_and_roundtrip.1 3 (by decide)

/-! ### Data model (App.tsx lines 23-32) -/

/-- Embedding of Category from App.tsx. -/
structure Category where
  id : String
  name : String
deriving DecidableEq

/-- Embedding of EventTag from App.tsx; the optional fixed flag is
modelled as a Bool since JavaScript tests it for truthiness. -/
structure EventTag where
  id : String
  categoryId : String
  name : Option String
  fixed : Bool
deriving DecidableEq

/-- Embedding of DayLog from App.tsx; a slot is null or an event id. -/
structure DayLog where
  dateKey : String
  slots : List (Option String)
deriving DecidableEq

/-- Truthiness of a slot value: JavaScript treats null, undefined and the
empty string as falsy, which is how App.tsx tests slots. -/
def slotTruthy : Option String → Bool
  | none => false
  | some s => s ≠ ""

/-! ### Aggregation engine (App.tsx lines 576-619)

JavaScript Map objects (byEventSlots, byCatSlots) are modelled as
insertion-ordered association lists with unique keys; bumpCount is
Map.set(k, (Map.get(k) ?? 0) + 1). -/

/-- Incrementing the count stored under a key in an association list,
appending the key with count 1 when absent — JavaScript Map increment. -/
def bumpCount : List (String × Nat) → String → List (String × Nat)
  | [], k => [(k, 1)]
  | (k', v) :: rest, k =>
    if k' = k then (k', v + 1) :: rest else (k', v) :: bumpCount rest k

/-- Count stored under a key (Map.get, with 0 for a missing key). -/
def countOf (m : List (String × Nat)) (k : String) : Nat :=
  match m with
  | [] => 0
  | (k', v) :: rest => if k' = k then v else countOf rest k

/-- Sum of all counts in an association list. -/
def sumCounts (m : List (String × Nat)) : Nat :=
  (m.map Prod.snd).sum

/-- Intermediate scan state of aggregateDays. -/
structure AggState where
  byEventSlots : List (String × Nat)
  byCatSlots : List (String × Nat)
  totalSlots : Nat

/-- Category an event id resolves to: its event's categoryId, or the
sentinel when the event no longer exists (App.tsx line 602). -/
def resolveCat (eventById : String → Option EventTag) (eid : String) : String :=
  match eventById eid with
  | some ev => ev.categoryId
  | none => ("cat_deleted")

/-- Scanning one slot of a day (body of the inner loop of aggregateDays):
falsy entries are skipped, otherwise both maps and the total are bumped. -/
def aggSlot (eventById : String → Option EventTag) (st : AggState) (s : Option String) : AggState :=
  match s with
  | none => st
  | some eid =>
    if eid = "" then st
    else
      { byEventSlots := bumpCount st.byEventSlots eid
        byCatSlots := bumpCount st.byCatSlots (resolveCat eventById eid)
        totalSlots := st.totalSlots + 1 }

/-- Scanning one entry of the input day list: null/undefined days are
skipped (App.tsx line 593). -/
def aggDay (eventById : String → Option EventTag) (st : AggState) (d : Option DayLog) : AggState :=
  match d with
  | none => st
  | some d => d.slots.foldl (aggSlot eventById) st

/-- Result shape of aggregateDays. -/
structure Agg where
  totalMinutes : Nat
  byEvent : List (String × Nat)
  byCat : List (String × Nat)

/-- Embedding of aggregateDays from App.tsx: scan all days, then convert
slot counts to minutes by multiplying with SLOT_MINUTES = 15. -/
def aggregateDays (days : List (Option DayLog)) (eventById : String → Option EventTag) : Agg :=
  let st := days.foldl (aggDay eventById) ⟨[], [], 0⟩
  { totalMinutes := st.totalSlots * 15
    byEvent := st.byEventSlots.map (fun p => (p.1, p.2 * 15))
    byCat := st.byCatSlots.map (fun p => (p.1, p.2 * 15)) }

/-- Number of truthy slots across a day list whose event no longer
resolves (the slots the claim says must land in the sentinel bucket). -/
def deletedSlotCount (days : List (Option DayLog)) (eventById : String → Option EventTag) : Nat :=
  (days.map (fun d =>
    match d with
    | none => 0
    | some d => d.slots.countP (fun s =>
        match s with
        | none => false
        | some eid => eid ≠ "" && (eventById eid).isNone))).sum

theorem sumCounts_bumpCount (m : List (String × Nat)) (k : String) :
    sumCounts (bumpCount m k) = sumCounts m + 1 := by
  induction m with
  | nil => simp [bumpCount, sumCounts]
  | cons p rest ih =>
    obtain ⟨k', v⟩ := p
    by_cases h : k' = k
    · simp [bumpCount, h, sumCounts]
      omega
    · simp only [bumpCount, h, if_false]
      simp only [sumCounts, List.map_cons, List.sum_cons] at ih ⊢
      omega

theorem countOf_bumpCount_self (m : List (String × Nat)) (k : String) :
    countOf (bumpCount m k) k = countOf m k + 1 := by
  induction m with
  | nil => simp [bumpCount, countOf]
  | cons p rest ih =>
    obtain ⟨k', v⟩ := p
    by_cases h : k' = k
    · simp [bumpCount, h, countOf]
    · simp [bumpCount, h, countOf, ih]

theorem countOf_bumpCount_ne (m : List (String × Nat)) (k k' : String) (h : k ≠ k') :
    countOf (bumpCount m k) k' = countOf m k' := by
  induction m with
  | nil => simp [bumpCount, countOf, h]
  | cons p rest ih =>
    obtain ⟨k0, v⟩ := p
    by_cases h0 : k0 = k
    · subst h0
      simp [bumpCount, countOf, h]
    · simp [bumpCount, h0, countOf, ih]

/-- Number of truthy (counted) slots in one optional day. -/
def dayTruthyCount : Option DayLog → Nat
  | none => 0
  | some d => d.slots.countP slotTruthy

/-- Number of truthy slots across a day list. -/
def truthySlotCount (days : List (Option DayLog)) : Nat :=
  (days.map dayTruthyCount).sum

/-- Whether a slot is counted into category c by the aggregation. -/
def slotInCat (eventById : String → Option EventTag) (c : String) : Option String → Bool
  | none => false
  | some eid => eid ≠ "" && resolveCat eventById eid == c

/-- Number of slots of one optional day counted into category c. -/
def dayCatCount (eventById : String → Option EventTag) (c : String) : Option DayLog → Nat
  | none => 0
  | some d => d.slots.countP (slotInCat eventById c)

/-- Number of slots across a day list counted into category c. -/
def catSlotCount (days : List (Option DayLog)) (eventById : String → Option EventTag) (c : String) : Nat :=
  (days.map (dayCatCount eventById c)).sum

theorem aggSlot_foldl_inv (eventById : String → Option EventTag) :
    ∀ (slots : List (Option String)) (st : AggState),
    (slots.foldl (aggSlot eventById) st).totalSlots = st.totalSlots + slots.countP slotTruthy ∧
    sumCounts (slots.foldl (aggSlot eventById) st).byEventSlots
      = sumCounts st.byEventSlots + slots.countP slotTruthy ∧
    sumCounts (slots.foldl (aggSlot eventById) st).byCatSlots
      = sumCounts st.byCatSlots + slots.countP slotTruthy ∧
    ∀ c, countOf (slots.foldl (aggSlot eventById) st).byCatSlots c
      = countOf st.byCatSlots c + slots.countP (slotInCat eventById c) := by
  intro slots
  induction slots with
  | nil => intro st; simp
  | cons s rest ih =>
    intro st
    obtain ⟨ih1, ih2, ih3, ih4⟩ := ih (aggSlot eventById st s)
    match s with
    | none =>
      have hz : aggSlot eventById st none = st := rfl
      rw [hz] at ih1 ih2 ih3 ih4
      refine ⟨?_, ?_, ?_, fun c => ?_⟩ <;>
        simp [List.foldl_cons, hz, List.countP_cons, slotTruthy, slotInCat,
          ih1, ih2, ih3, ih4]
    | some eid =>
      by_cases he : eid = ""
      · subst he
        have hz : aggSlot eventById st (some ("")) = st := rfl
        rw [hz] at ih1 ih2 ih3 ih4
        refine ⟨?_, ?_, ?_, fun c => ?_⟩ <;>
          simp [List.foldl_cons, hz, List.countP_cons, slotTruthy, slotInCat,
            ih1, ih2, ih3, ih4]
      · have hst : aggSlot eventById st (some eid)
            = { byEventSlots := bumpCount st.byEventSlots eid
                byCatSlots := bumpCount st.byCatSlots (resolveCat eventById eid)
                totalSlots := st.totalSlots + 1 } := by
          simp [aggSlot, he]
        refine ⟨?_, ?_, ?_, fun c => ?_⟩
        · rw [List.foldl_cons, ih1, hst]
          simp [List.countP_cons, slotTruthy, he]
          omega
        · rw [List.foldl_cons, ih2, hst]
          simp [List.countP_cons, slotTruthy, he, sumCounts_bumpCount]
          omega
        · rw [List.foldl_cons, ih3, hst]
          simp [List.countP_cons, slotTruthy, he, sumCounts_bumpCount]
          omega
        · rw [List.foldl_cons, ih4 c, hst]
          simp only [List.countP_cons, slotInCat]
          by_cases hc : resolveCat eventById eid = c
          · simp [hc, countOf_bumpCount_self, he]
            omega
          · have : (resolveCat eventById eid == c) = false := by
              simp [hc]
            simp [countOf_bumpCount_ne _ _ _ hc, this, he]

theorem aggDay_foldl_inv (eventById : String → Option EventTag) :
    ∀ (days : List (Option DayLog)) (st : AggState),
    (days.foldl (aggDay eventById) st).totalSlots = st.totalSlots + truthySlotCount days ∧
    sumCounts (days.foldl (aggDay eventById) st).byEventSlots
      = sumCounts st.byEventSlots + truthySlotCount days ∧
    sumCounts (days.foldl (aggDay eventById) st).byCatSlots
      = sumCounts st.byCatSlots + truthySlotCount days ∧
    ∀ c, countOf (days.foldl (aggDay eventById) st).byCatSlots c
      = countOf st.byCatSlots c + catSlotCount days eventById c := by
  intro days
  induction days with
  | nil => intro st; simp [truthySlotCount, catSlotCount]
  | cons d rest ih =>
    intro st
    obtain ⟨ih1, ih2, ih3, ih4⟩ := ih (aggDay eventById st d)
    match d with
    | none =>
      have hz : aggDay eventById st none = st := rfl
      rw [hz] at ih1 ih2 ih3 ih4
      refine ⟨?_, ?_, ?_, fun c => ?_⟩ <;>
        simp only [List.foldl_cons, hz, ih1, ih2, ih3, ih4, truthySlotCount,
          catSlotCount, List.map_cons, List.sum_cons, dayTruthyCount, dayCatCount] <;>
        omega
    | some dd =>
      have hz : aggDay eventById st (some dd) = dd.slots.foldl (aggSlot eventById) st := rfl
      rw [hz] at ih1 ih2 ih3 ih4
      obtain ⟨s1, s2, s3, s4⟩ := aggSlot_foldl_inv eventById dd.slots st
      refine ⟨?_, ?_, ?_, fun c => ?_⟩
      · rw [List.foldl_cons, hz, ih1, s1]
        simp only [truthySlotCount, List.map_cons, List.sum_cons, dayTruthyCount]
        omega
      · rw [List.foldl_cons, hz, ih2, s2]
        simp only [truthySlotCount, List.map_cons, List.sum_cons, dayTruthyCount]
        omega
      · rw [List.foldl_cons, hz, ih3, s3]
        simp only [truthySlotCount, List.map_cons, List.sum_cons, dayTruthyCount]
        omega
      · rw [List.foldl_cons, hz, ih4 c, s4 c]
        simp only [catSlotCount, List.map_cons, List.sum_cons, dayCatCount]
        omega

theorem sumCounts_map_mul (m : List (String × Nat)) (k : Nat) :
    sumCounts (m.map (fun p => (p.1, p.2 * k))) = sumCounts m * k := by
  induction m with
  | nil => simp [sumCounts]
  | cons p rest ih =>
    simp only [sumCounts, List.map_cons, List.sum_cons] at ih ⊢
    rw [Nat.add_mul, ih]

theorem countOf_map_mul (m : List (String × Nat)) (k : Nat) (c : String) :
    countOf (m.map (fun p => (p.1, p.2 * k))) c = countOf m c * k := by
  induction m with
  | nil => simp [countOf]
  | cons p rest ih =>
    obtain ⟨k', v⟩ := p
    by_cases h : k' = c <;> simp [countOf, h, ih]

/-- C1: for every input day list (null entries skipped) and every
event lookup, aggregateDays conserves totals: the minutes summed over all
event ids equal totalMinutes, the minutes summed over all category ids
equal totalMinutes, and for every category id c — in particular the
sentinel cat_deleted that an unresolvable event id maps to — the bucket
of c holds exactly 15 minutes per slot resolving to c, so deleted slots
are credited to cat_deleted rather than dropped. -/
theorem aggregateDays_conservation (days : List (Option DayLog))
    (eventById : String → Option EventTag) :
    sumCounts (aggregateDays days eventById).byEvent
        = (aggregateDays days eventById).totalMinutes ∧
    sumCounts (aggregateDays days eventById).byCat
        = (aggregateDays days eventById).totalMinutes ∧
    ∀ c, countOf (aggregateDays days eventById).byCat c
        = 15 * catSlotCount days eventById c := by
  obtain ⟨h1, h2, h3, h4⟩ := aggDay_foldl_inv eventById days ⟨[], [], 0⟩
  refine ⟨?_, ?_, fun c => ?_⟩
  · simp only [aggregateDays, sumCounts_map_mul, h1, h2]
    simp [sumCounts]
  · simp only [aggregateDays, sumCounts_map_mul, h1, h3]
    simp [sumCounts]
  · simp only [aggregateDays, countOf_map_mul, h4 c]
    simp [countOf, Nat.mul_comm]

/-! ### Segment compressor (App.tsx lines 1020-1036)

The source scans i = 0..95 once; on a truthy slot it extends j to the end
of the maximal run of slots strictly equal to the same event id and emits
one segment { start: i, end: j, len: j - i, eventId }.  The embedding
performs the same single left-to-right scan carrying the open run (start
index and event id) as explicit state; end is renamed stop (Lean
keyword). -/

/-- One emitted segment: { start, end, len, eventId } in the source. -/
structure Seg where
  start : Nat
  stop : Nat
  len : Nat
  eventId : String
deriving DecidableEq

/-- Run state opened by a slot value: a truthy slot at index i opens a
run (i, id), a falsy slot opens none. -/
def segOpen (i : Nat) (x : Option String) : Option (Nat × String) :=
  match x with
  | some e => if e = "" then none else some (i, e)
  | none => none

/-- Single left-to-right scan of the slot array.  The second argument is
the open run: while the next slot strictly equals the run's event id the
run extends; otherwise the run is emitted as a segment and a new run
opens if the slot is truthy. -/
def segScanAux : Nat → Option (Nat × String) → List (Option String) → List Seg
  | _, none, [] => []
  | i, some (s, eid), [] => [⟨s, i, i - s, eid⟩]
  | i, none, x :: rest => segScanAux (i + 1) (segOpen i x) rest
  | i, some (s, eid), x :: rest =>
    if x = some eid then segScanAux (i + 1) (some (s, eid)) rest
    else ⟨s, i, i - s, eid⟩ :: segScanAux (i + 1) (segOpen i x) rest

/-- Embedding of the globalSegments useMemo body from App.tsx. -/
def globalSegments (slots : List (Option String)) : List Seg :=
  segScanAux 0 none slots

/-- Invariant of the open run during the scan: it started strictly before
the cursor and carries a truthy event id. -/
def RunInv (i : Nat) : Option (Nat × String) → Prop
  | none => True
  | some (s, eid) => s < i ∧ eid ≠ ""

/-- Smallest start any segment the scan can still produce may have. -/
def runLow (i : Nat) : Option (Nat × String) → Nat
  | none => i
  | some (s, _) => s

theorem runInv_some {i s : Nat} {eid : String} (h1 : s < i) (h2 : eid ≠ ("")) :
    RunInv i (some (s, eid)) :=
  ⟨h1, h2⟩

theorem runInv_segOpen (i : Nat) (x : Option String) : RunInv (i + 1) (segOpen i x) := by
  match x with
  | none => trivial
  | some e =>
    by_cases he : e = ""
    · simp [segOpen, he, RunInv]
    · rw [show segOpen i (some e) = some (i, e) from by simp [segOpen, he]]
      exact ⟨Nat.lt_succ_self i, he⟩

theorem runLow_segOpen (i : Nat) (x : Option String) : i ≤ runLow (i + 1) (segOpen i x) := by
  match x with
  | none => simp [segOpen, runLow]
  | some e =>
    by_cases he : e = "" <;> simp [segOpen, he, runLow]

theorem segScanAux_bounds : ∀ (l : List (Option String)) (i : Nat)
    (run : Option (Nat × String)), RunInv i run →
    ∀ seg ∈ segScanAux i run l,
      runLow i run ≤ seg.start ∧ seg.start < seg.stop ∧ seg.stop ≤ i + l.length ∧
      seg.len = seg.stop - seg.start := by
  intro l
  induction l with
  | nil =>
    intro i run hinv seg hseg
    match run with
    | none => simp [segScanAux] at hseg
    | some (s, eid) =>
      simp only [segScanAux, List.mem_singleton] at hseg
      subst hseg
      exact ⟨le_refl _, hinv.1, by simp, rfl⟩
  | cons x rest ih =>
    intro i run hinv seg hseg
    match run with
    | none =>
      simp only [segScanAux] at hseg
      obtain ⟨h1, h2, h3, h4⟩ := ih (i + 1) _ (runInv_segOpen i x) seg hseg
      refine ⟨?_, h2, ?_, h4⟩
      · calc runLow i none = i := rfl
          _ ≤ runLow (i + 1) (segOpen i x) := runLow_segOpen i x
          _ ≤ seg.start := h1
      · simpa [Nat.add_comm, Nat.add_left_comm] using h3
    | some (s, eid) =>
      simp only [segScanAux] at hseg
      by_cases hx : x = some eid
      · rw [if_pos hx] at hseg
        obtain ⟨h1, h2, h3, h4⟩ :=
          ih (i + 1) (some (s, eid)) (runInv_some (Nat.lt_succ_of_lt hinv.1) hinv.2) seg hseg
        refine ⟨h1, h2, ?_, h4⟩
        simpa [Nat.add_comm, Nat.add_left_comm] using h3
      · rw [if_neg hx] at hseg
        rcases List.mem_cons.mp hseg with hseg | hseg
        · subst hseg
          exact ⟨le_refl _, hinv.1, le_self_add, rfl⟩
        · obtain ⟨h1, h2, h3, h4⟩ := ih (i + 1) _ (runInv_segOpen i x) seg hseg
          refine ⟨?_, h2, ?_, h4⟩
          · have := runLow_segOpen i x
            calc runLow i (some (s, eid)) = s := rfl
              _ ≤ i := Nat.le_of_lt hinv.1
              _ ≤ runLow (i + 1) (segOpen i x) := this
              _ ≤ seg.start := h1
          · simpa [Nat.add_comm, Nat.add_left_comm] using h3

theorem segScanAux_pairwise : ∀ (l : List (Option String)) (i : Nat)
    (run : Option (Nat × String)), RunInv i run →
    List.Pairwise (fun a b => a.stop ≤ b.start ∧ a.start < b.start) (segScanAux i run l) := by
  intro l
  induction l with
  | nil =>
    intro i run hinv
    match run with
    | none => simp [segScanAux]
    | some (s, eid) => simp [segScanAux]
  | cons x rest ih =>
    intro i run hinv
    match run with
    | none => exact ih (i + 1) _ (runInv_segOpen i x)
    | some (s, eid) =>
      simp only [segScanAux]
      by_cases hx : x = some eid
      · rw [if_pos hx]
        exact ih (i + 1) (some (s, eid)) (runInv_some (Nat.lt_succ_of_lt hinv.1) hinv.2)
      · rw [if_neg hx]
        refine List.Pairwise.cons ?_ (ih (i + 1) _ (runInv_segOpen i x))
        intro b hb
        obtain ⟨h1, _, _, _⟩ := segScanAux_bounds rest (i + 1) _ (runInv_segOpen i x) b hb
        have hlow := runLow_segOpen i x
        constructor
        · show i ≤ b.start
          omega
        · show s < b.start
          have := hinv.1
          omega

/-- A scan with an open run always emits that run first, with the run's
start and event id. -/
theorem segScanAux_head : ∀ (l : List (Option String)) (i s : Nat) (eid : String),
    ∃ t tail, segScanAux i (some (s, eid)) l = Seg.mk s t (t - s) eid :: tail ∧ i ≤ t := by
  intro l
  induction l with
  | nil => intro i s eid; exact ⟨i, [], rfl, le_refl i⟩
  | cons x rest ih =>
    intro i s eid
    by_cases hx : x = some eid
    · obtain ⟨t, tail, heq, ht⟩ := ih (i + 1) s eid
      exact ⟨t, tail, by simp [segScanAux, hx, heq], by omega⟩
    · exact ⟨i, segScanAux (i + 1) (segOpen i x) rest, by simp [segScanAux, hx], le_refl i⟩

theorem segScanAux_chain : ∀ (l : List (Option String)) (i : Nat)
    (run : Option (Nat × String)), RunInv i run →
    List.Chain' (fun a b => a.stop = b.start → a.eventId ≠ b.eventId) (segScanAux i run l) := by
  intro l
  induction l with
  | nil =>
    intro i run hinv
    match run with
    | none => simp [segScanAux]
    | some (s, eid) => simp [segScanAux]
  | cons x rest ih =>
    intro i run hinv
    match run with
    | none => exact ih (i + 1) _ (runInv_segOpen i x)
    | some (s, eid) =>
      simp only [segScanAux]
      by_cases hx : x = some eid
      · rw [if_pos hx]
        exact ih (i + 1) (some (s, eid)) (runInv_some (Nat.lt_succ_of_lt hinv.1) hinv.2)
      · rw [if_neg hx]
        rw [List.chain'_cons']
        refine ⟨?_, ih (i + 1) _ (runInv_segOpen i x)⟩
        intro b hb
        match hxv : x with
        | none =>
          intro habs _
          obtain ⟨h1, _, _, _⟩ := segScanAux_bounds rest (i + 1) none trivial b
            (by
              have : (segScanAux (i + 1) (segOpen i none) rest).head? = some b := hb
              simp only [segOpen] at this
              exact List.mem_of_mem_head? this)
          simp only [runLow] at h1
          simp at habs
          omega
        | some e =>
          by_cases he : e = ""
          · intro habs _
            subst he
            obtain ⟨h1, _, _, _⟩ := segScanAux_bounds rest (i + 1) none trivial b
              (by
                have : (segScanAux (i + 1) (segOpen i (some (""))) rest).head? = some b := hb
                simp only [segOpen, if_pos rfl] at this
                exact List.mem_of_mem_head? this)
            simp only [runLow] at h1
            simp at habs
            omega
          · have hopen : segOpen i (some e) = some (i, e) := by simp [segOpen, he]
            rw [hopen] at hb
            obtain ⟨t, tail, heq, _⟩ := segScanAux_head rest (i + 1) i e
            rw [heq] at hb
            rw [List.head?_cons, Option.mem_some_iff] at hb
            subst hb
            intro _ habs
            simp only at habs
            exact hx (by rw [habs])

/-- Slot indices covered by the open run so far. -/
def runCovers (i j : Nat) : Option (Nat × String) → Prop
  | none => False
  | some (s, _) => s ≤ j ∧ j < i

theorem segScanAux_coverage : ∀ (l : List (Option String)) (i : Nat)
    (run : Option (Nat × String)), RunInv i run → ∀ j : Nat,
    (∃ seg ∈ segScanAux i run l, seg.start ≤ j ∧ j < seg.stop) ↔
      (runCovers i j run ∨ (i ≤ j ∧ slotTruthy (l.getD (j - i) none) = true)) := by
  intro l
  induction l with
  | nil =>
    intro i run hinv j
    match run with
    | none => simp [segScanAux, runCovers, slotTruthy]
    | some (s, eid) => simp [segScanAux, runCovers, slotTruthy]
  | cons x rest ih =>
    intro i run hinv j
    have hgetD : i ≤ j → ((x :: rest).getD (j - i) none)
        = (if j = i then x else rest.getD (j - (i + 1)) none) := by
      intro hij
      by_cases hji : j = i
      · simp [hji]
      · have h1 : j - i = (j - (i + 1)) + 1 := by omega
        rw [h1, List.getD_cons_succ, if_neg hji]
    match run with
    | none =>
      have ihj := ih (i + 1) (segOpen i x) (runInv_segOpen i x) j
      simp only [segScanAux]
      rw [ihj]
      constructor
      · rintro (hc | ⟨hij, ht⟩)
        · match x, hc with
          | none, hc => simp [segOpen, runCovers] at hc
          | some e, hc =>
            by_cases he : e = ""
            · rw [he] at hc; simp [segOpen, runCovers] at hc
            · simp only [segOpen, he, if_false, runCovers] at hc
              have hj : j = i := by omega
              refine Or.inr ⟨by omega, ?_⟩
              rw [hgetD (by omega), if_pos hj]
              simp [slotTruthy, he]
        · refine Or.inr ⟨by omega, ?_⟩
          rw [hgetD (by omega), if_neg (by omega)]
          exact ht
      · rintro (hc | ⟨hij, ht⟩)
        · simp [runCovers] at hc
        · by_cases hji : j = i
          · rw [hgetD hij, if_pos hji] at ht
            match x, ht with
            | none, ht => simp [slotTruthy] at ht
            | some e, ht =>
              have he : e ≠ "" := by simpa [slotTruthy] using ht
              refine Or.inl ?_
              simp only [segOpen, he, if_false, runCovers]
              omega
          · refine Or.inr ⟨by omega, ?_⟩
            rw [hgetD hij, if_neg hji] at ht
            exact ht
    | some (s, eid) =>
      obtain ⟨hsi, heid⟩ := hinv
      simp only [segScanAux]
      by_cases hx : x = some eid
      · rw [if_pos hx]
        have ihj := ih (i + 1) (some (s, eid)) (runInv_some (Nat.lt_succ_of_lt hsi) heid) j
        rw [ihj]
        simp only [runCovers]
        constructor
        · rintro (⟨h1, h2⟩ | ⟨hij, ht⟩)
          · by_cases hji : j = i
            · refine Or.inr ⟨by omega, ?_⟩
              rw [hgetD (by omega), if_pos hji, hx]
              simp [slotTruthy, heid]
            · exact Or.inl ⟨h1, by omega⟩
          · refine Or.inr ⟨by omega, ?_⟩
            rw [hgetD (by omega), if_neg (by omega)]
            exact ht
        · rintro (⟨h1, h2⟩ | ⟨hij, ht⟩)
          · exact Or.inl ⟨h1, by omega⟩
          · by_cases hji : j = i
            · exact Or.inl ⟨by omega, by omega⟩
            · refine Or.inr ⟨by omega, ?_⟩
              rw [hgetD hij, if_neg hji] at ht
              exact ht
      · rw [if_neg hx]
        have ihj := ih (i + 1) (segOpen i x) (runInv_segOpen i x) j
        simp only [List.mem_cons, exists_eq_or_imp]
        rw [ihj]
        simp only [runCovers]
        constructor
        · rintro (⟨h1, h2⟩ | (hc | ⟨hij, ht⟩))
          · exact Or.inl ⟨h1, h2⟩
          · match x, hc with
            | none, hc => simp [segOpen, runCovers] at hc
            | some e, hc =>
              by_cases he : e = ""
              · rw [he] at hc; simp [segOpen, runCovers] at hc
              · simp only [segOpen, he, if_false, runCovers] at hc
                refine Or.inr ⟨by omega, ?_⟩
                rw [hgetD (by omega), if_pos (by omega)]
                simp [slotTruthy, he]
          · refine Or.inr ⟨by omega, ?_⟩
            rw [hgetD (by omega), if_neg (by omega)]
            exact ht
        · rintro (⟨h1, h2⟩ | ⟨hij, ht⟩)
          · exact Or.inl ⟨h1, h2⟩
          · by_cases hji : j = i
            · rw [hgetD hij, if_pos hji] at ht
              match x, ht with
              | none, ht => simp [slotTruthy] at ht
              | some e, ht =>
                have he : e ≠ "" := by simpa [slotTruthy] using ht
                refine Or.inr (Or.inl ?_)
                simp only [segOpen, he, if_false, runCovers]
                omega
            · refine Or.inr (Or.inr ⟨by omega, ?_⟩)
              rw [hgetD hij, if_neg hji] at ht
              exact ht

/-- C2: for every 96-entry slot array, the single-scan segment list has
start < stop on every segment, segments pairwise disjoint and ordered by
increasing start, segments covering exactly the truthy (non-empty) slots,
and no two touching segments carrying the same event id. -/
theorem globalSegments_rle (slots : List (Option String)) (h : slots.length = 96) :
    (∀ seg ∈ globalSegments slots, seg.start < seg.stop) ∧
    List.Pairwise (fun a b => a.stop ≤ b.start ∧ a.start < b.start) (globalSegments slots) ∧
    List.Chain' (fun a b => a.stop = b.start → a.eventId ≠ b.eventId) (globalSegments slots) ∧
    (∀ j : Nat, (∃ seg ∈ globalSegments slots, seg.start ≤ j ∧ j < seg.stop) ↔
      slotTruthy (slots.getD j none) = true) := by
  refine ⟨?_, ?_, ?_, ?_⟩
  · intro seg hseg
    exact (segScanAux_bounds slots 0 none trivial seg hseg).2.1
  · exact segScanAux_pairwise slots 0 none trivial
  · exact segScanAux_chain slots 0 none trivial
  · intro j
    have := segScanAux_coverage slots 0 none trivial j
    simpa [runCovers, globalSegments] using this

/-- C2 witness: the theorem instantiated at a concrete 96-slot array. -/
theorem globalSegments_rle_witness :
    (List.replicate 95 (none : Option String) ++ [some ("a")]).length = 96 ∧
    (∀ seg ∈ globalSegments (List.replicate 95 (none : Option String) ++ [some ("a")]),
      seg.start < seg.stop) := by
  refine ⟨by simp, ?_⟩
  exact (globalSegments_rle _ (by simp)).1

/-! ### Row clipping (App.tsx lines 1298-1326)

Each global segment is intersected with the row window [rowStart, rowEnd);
an empty intersection yields null (filtered out), otherwise a piece with
startCol/len relative to the row and flags isStartHere/isEndHere telling
whether the clipped edges coincide with the true segment edges. -/

/-- Visible piece of a global segment inside one row. -/
structure RowPiece where
  eventId : String
  totalLen : Nat
  startCol : Nat
  len : Nat
  isStartHere : Bool
  isEndHere : Bool
deriving DecidableEq

/-- Embedding of the per-segment body of the rowSegments map in App.tsx. -/
def clipToRow (rowStart rowEnd : Nat) (g : Seg) : Option RowPiece :=
  let start := max g.start rowStart
  let stop := min g.stop rowEnd
  if start ≥ stop then none
  else
    some
      { eventId := g.eventId
        totalLen := g.len
        startCol := start - rowStart
        len := stop - start
        isStartHere := start = g.start
        isEndHere := stop = g.stop }

/-- Embedding of rowSegments from App.tsx: map over the global segments
and drop the null (clipped-away) entries. -/
def rowSegments (segs : List Seg) (rowStart rowEnd : Nat) : List RowPiece :=
  segs.filterMap (clipToRow rowStart rowEnd)

/-- C3: a global segment clipped to a row window yields no piece exactly
when the intersection is empty; when it yields a piece, the piece's left
edge (rowStart + startCol) equals the window-clipped start, its right edge
is left edge + len, isStartHere holds iff the left edge equals the
segment's global start, and isEndHere holds iff the right edge equals the
segment's global stop. -/
theorem clipToRow_flags (g : Seg) (rowStart rowEnd : Nat) :
    (clipToRow rowStart rowEnd g = none ↔ min g.stop rowEnd ≤ max g.start rowStart) ∧
    (∀ p : RowPiece, clipToRow rowStart rowEnd g = some p →
      rowStart + p.startCol = max g.start rowStart ∧
      p.len = min g.stop rowEnd - max g.start rowStart ∧
      (p.isStartHere = true ↔ rowStart + p.startCol = g.start) ∧
      (p.isEndHere = true ↔ rowStart + p.startCol + p.len = g.stop)) := by
  have ha1 : g.start ≤ max g.start rowStart := Nat.le_max_left _ _
  have ha2 : rowStart ≤ max g.start rowStart := Nat.le_max_right _ _
  have hb1 : min g.stop rowEnd ≤ g.stop := Nat.min_le_left _ _
  have hb2 : min g.stop rowEnd ≤ rowEnd := Nat.min_le_right _ _
  have ha3 := max_choice g.start rowStart
  have hb3 := min_choice g.stop rowEnd
  by_cases hcond : max g.start rowStart ≥ min g.stop rowEnd
  · refine ⟨⟨fun _ => hcond, fun _ => ?_⟩, fun p hp => ?_⟩
    · simp [clipToRow, hcond]
    · rw [show clipToRow rowStart rowEnd g = none from by simp [clipToRow, hcond]] at hp
      exact absurd hp (by simp)
  · have hne : clipToRow rowStart rowEnd g
        = some
          { eventId := g.eventId
            totalLen := g.len
            startCol := max g.start rowStart - rowStart
            len := min g.stop rowEnd - max g.start rowStart
            isStartHere := max g.start rowStart = g.start
            isEndHere := min g.stop rowEnd = g.stop } := by
      simp [clipToRow, hcond]
    refine ⟨⟨fun habs => ?_, fun hle => absurd hle hcond⟩, fun p hp => ?_⟩
    · rw [hne] at habs
      exact absurd habs (by simp)
    · rw [hne, Option.some_inj] at hp
      subst hp
      simp only [decide_eq_true_eq]
      have hlt : max g.start rowStart < min g.stop rowEnd := by omega
      refine ⟨by omega, by simp, ?_, ?_⟩
      · rcases ha3 with ha | ha <;> rw [ha] <;> constructor <;> intro h1 <;> omega
      · rcases ha3 with ha | ha <;> rcases hb3 with hb | hb <;> rw [ha, hb] <;>
          constructor <;> intro h1 <;> omega

/-- C3 witness: segment [2,10) containing event a clipped to row [8,16)
is a piece whose left edge 8 is not the global start and whose right edge
10 is the global stop. -/
theorem clipToRow_flags_witness :
    rowSegments [Seg.mk 2 10 8 ("a")] 8 16 = [RowPiece.mk ("a") 8 0 2 false true] ∧
    ((RowPiece.mk ("a") 8 0 2 false true).isStartHere = true ↔
      8 + (RowPiece.mk ("a") 8 0 2 false true).startCol = (Seg.mk 2 10 8 ("a")).start) := by
  constructor
  · decide
  · exact ((clipToRow_flags (Seg.mk 2 10 8 ("a")) 8 16).2
      (RowPiece.mk ("a") 8 0 2 false true) (by decide)).2.2.1

/-! ### Gesture recognizer (App.tsx lines 39-42, 649-657, 772-842)

Pointer coordinates are modelled as rationals; the numeric literals are
DRAG_START_PX = 6, AXIS_LOCK_RATIO = 1.2 = 6/5 and SCROLL_CANCEL_PX = 8
from the source.  The gestureRef record becomes a Gesture value inside an
AppState holding it together with the selected-set state; a pointer-move
event is a Sample carrying the pointer id, coordinates, and the slot of
the grid cell under the pointer (document.elementFromPoint +
closest("[data-slot]"), none when there is no such cell). -/

/-- Gesture drag-start distance threshold (DRAG_START_PX). -/
def dragStartPx : ℚ := 6

/-- Gesture axis lock ratio (AXIS_LOCK_RATIO, the literal 1.2). -/
def axisLockRatio : ℚ := 6 / 5

/-- Gesture scroll-cancel distance threshold (SCROLL_CANCEL_PX). -/
def scrollCancelPx : ℚ := 8

/-- Recognizer mode: "pending" | "hdrag" | "scroll" in the source. -/
inductive GestureMode where
  | pending
  | hdrag
  | scroll
deriving DecidableEq

/-- Embedding of the gestureRef record (pressEl omitted: it only serves
pointer capture, which has no model-visible effect). -/
structure Gesture where
  active : Bool
  pointerId : Nat
  startX : ℚ
  startY : ℚ
  startSlot : Nat
  mode : GestureMode
deriving DecidableEq

/-- One pointer-move event as the recognizer sees it. -/
structure Sample where
  pointerId : Nat
  clientX : ℚ
  clientY : ℚ
  slotUnder : Option Nat
deriving DecidableEq

/-- The recognizer-relevant component state: the selection set and the
current gesture. -/
structure AppState where
  selected : Finset Nat
  gesture : Option Gesture
deriving DecidableEq

/-- Embedding of selectRange from App.tsx: the contiguous inclusive range
between the two slots. -/
def selectRange (a b : Nat) : Finset Nat :=
  Finset.Icc (min a b) (max a b)

/-- Embedding of onCellPointerDown from App.tsx: selection becomes the
single pressed slot and a fresh pending gesture is recorded. -/
def onCellPointerDown (pid : Nat) (x y : ℚ) (startSlot : Nat) (st : AppState) : AppState :=
  { selected := {startSlot}
    gesture := some ⟨true, pid, x, y, startSlot, GestureMode.pending⟩ }

/-- Embedding of onGridPointerMove from App.tsx.  The source's pending
branch that sets mode = "hdrag" falls through to the common hdrag
selection update; that fall-through is written out explicitly here. -/
def onGridPointerMove (st : AppState) (e : Sample) : AppState :=
  match st.gesture with
  | none => st
  | some g =>
    if g.active = false then st
    else if e.pointerId ≠ g.pointerId then st
    else
      let adx := |e.clientX - g.startX|
      let ady := |e.clientY - g.startY|
      match g.mode with
      | GestureMode.scroll => st
      | GestureMode.pending =>
        if ady > scrollCancelPx ∧ ady > adx * axisLockRatio then
          { st with gesture := some { g with mode := GestureMode.scroll } }
        else if adx > dragStartPx ∧ adx > ady * axisLockRatio then
          match e.slotUnder with
          | none => { st with gesture := some { g with mode := GestureMode.hdrag } }
          | some slot =>
            { selected := selectRange g.startSlot slot
              gesture := some { g with mode := GestureMode.hdrag } }
        else st
      | GestureMode.hdrag =>
        match e.slotUnder with
        | none => st
        | some slot => { st with selected := selectRange g.startSlot slot }

/-- C5 counterexample: a press at slot 10 followed by a motion sample
with |dx| = 6 (which satisfies the claim's |dx| ≥ 6 and |dx| ≥ 1.2·|dy|)
over slot 20 leaves the recognizer pending with selection {10}; the code
requires strictly more than 6 px, so the claim's non-strict thresholds
are wrong at the boundary. -/
theorem hdrag_nonstrict_boundary_cex :
    |((6 : ℚ) - 0)| ≥ dragStartPx ∧
    |((6 : ℚ) - 0)| ≥ |((0 : ℚ) - 0)| * axisLockRatio ∧
    (onGridPointerMove (onCellPointerDown 1 0 0 10 ⟨∅, none⟩) ⟨1, 6, 0, some 20⟩).selected
        = {10} ∧
    (onGridPointerMove (onCellPointerDown 1 0 0 10 ⟨∅, none⟩)
        ⟨1, 6, 0, some 20⟩).gesture.map Gesture.mode = some GestureMode.pending ∧
    ({10} : Finset Nat) ≠ Finset.Icc 10 20 := by
  have hstep : onGridPointerMove (onCellPointerDown 1 0 0 10 ⟨∅, none⟩) ⟨1, 6, 0, some 20⟩
      = onCellPointerDown 1 0 0 10 ⟨∅, none⟩ := by
    norm_num [onGridPointerMove, onCellPointerDown, dragStartPx, axisLockRatio, scrollCancelPx]
  have hne : ({10} : Finset Nat) ≠ Finset.Icc 10 20 := by
    intro habs
    have h11 : (11 : ℕ) ∈ Finset.Icc 10 20 := by simp
    rw [← habs] at h11
    simp at h11
  exact ⟨by norm_num [dragStartPx], by norm_num [axisLockRatio], by rw [hstep]; rfl,
    by rw [hstep]; rfl, hne⟩

/-- C5 (amended): with the source's strict thresholds — |dx| strictly
greater than 6 px and strictly greater than 1.2·|dy| — a motion sample
over slot T while pending moves the recognizer to hdrag and sets the
selection to the inclusive range between the anchor slot and T. -/
theorem onGridPointerMove_hdrag_select (st0 : AppState) (pid S T : Nat) (x y : ℚ)
    (e : Sample) (hpid : e.pointerId = pid) (hslot : e.slotUnder = some T)
    (hdx : |e.clientX - x| > dragStartPx)
    (hdom : |e.clientX - x| > |e.clientY - y| * axisLockRatio) :
    (onGridPointerMove (onCellPointerDown pid x y S st0) e).gesture.map Gesture.mode
        = some GestureMode.hdrag ∧
    (onGridPointerMove (onCellPointerDown pid x y S st0) e).selected
        = Finset.Icc (min S T) (max S T) := by
  have hnoscroll : ¬ (|e.clientY - y| > scrollCancelPx ∧
      |e.clientY - y| > |e.clientX - x| * axisLockRatio) := by
    rintro ⟨-, h2⟩
    have hx0 : (0 : ℚ) ≤ |e.clientX - x| := abs_nonneg _
    have hy0 : (0 : ℚ) ≤ |e.clientY - y| := abs_nonneg _
    have h6 : |e.clientX - x| > 6 := by simpa [dragStartPx] using hdx
    rw [axisLockRatio] at hdom h2
    nlinarith
  have hstep : onGridPointerMove (onCellPointerDown pid x y S st0) e
      = { selected := selectRange S T
          gesture := some ⟨true, pid, x, y, S, GestureMode.hdrag⟩ } := by
    simp only [onCellPointerDown, onGridPointerMove, hpid, ne_eq, not_true_eq_false,
      if_false, Bool.true_eq_false, hslot]
    rw [if_neg hnoscroll, if_pos ⟨hdx, hdom⟩]
  rw [hstep]
  exact ⟨rfl, rfl⟩

/-- C5 witness: a press at slot 10 at (0,0) followed by a sample at
(7,0) over slot 20 selects the 11 slots 10..20 in hdrag mode. -/
theorem onGridPointerMove_hdrag_select_witness :
    ((onGridPointerMove (onCellPointerDown 1 0 0 10 ⟨∅, none⟩)
        ⟨1, 7, 0, some 20⟩).gesture.map Gesture.mode = some GestureMode.hdrag ∧
     (onGridPointerMove (onCellPointerDown 1 0 0 10 ⟨∅, none⟩)
        ⟨1, 7, 0, some 20⟩).selected = Finset.Icc (min 10 20) (max 10 20)) ∧
    (Finset.Icc (min 10 20) (max 10 20)).card = 11 := by
  constructor
  · exact onGridPointerMove_hdrag_select ⟨∅, none⟩ 1 10 20 0 0 ⟨1, 7, 0, some 20⟩ rfl rfl
      (by norm_num [dragStartPx]) (by norm_num [axisLockRatio])
  · simp [Nat.card_Icc]

/-- Interaction invariant: after a press at slot S, every pointer-move
step keeps the same active flag, pointer id, press point and anchor slot,
and while the mode is pending or scroll the selection is still {S}. -/
def GestureShape (pid : Nat) (x y : ℚ) (S : Nat) (st : AppState) : Prop :=
  ∃ m, st.gesture = some ⟨true, pid, x, y, S, m⟩ ∧
    ((m = GestureMode.pending ∨ m = GestureMode.scroll) → st.selected = {S})

theorem gestureShape_step (pid : Nat) (x y : ℚ) (S : Nat) (st : AppState) (e : Sample)
    (h : GestureShape pid x y S st) : GestureShape pid x y S (onGridPointerMove st e) := by
  obtain ⟨m, hg, hsel⟩ := h
  by_cases hp : e.pointerId = pid
  · match m, hsel with
    | GestureMode.scroll, hsel =>
      have hfix : onGridPointerMove st e = st := by
        simp [onGridPointerMove, hg, hp]
      rw [hfix]
      exact ⟨_, hg, hsel⟩
    | GestureMode.hdrag, hsel =>
      match hu : e.slotUnder with
      | none =>
        have hfix : onGridPointerMove st e = st := by
          simp [onGridPointerMove, hg, hp, hu]
        rw [hfix]
        exact ⟨_, hg, hsel⟩
      | some slot =>
        have hfix : onGridPointerMove st e = { st with selected := selectRange S slot } := by
          simp [onGridPointerMove, hg, hp, hu]
        rw [hfix]
        exact ⟨GestureMode.hdrag, hg, by simp⟩
    | GestureMode.pending, hsel =>
      by_cases hsc : |e.clientY - y| > scrollCancelPx ∧
          |e.clientY - y| > |e.clientX - x| * axisLockRatio
      · have hfix : onGridPointerMove st e
            = { st with gesture := some ⟨true, pid, x, y, S, GestureMode.scroll⟩ } := by
          simp [onGridPointerMove, hg, hp, hsc]
        rw [hfix]
        refine ⟨GestureMode.scroll, rfl, fun _ => ?_⟩
        exact hsel (Or.inl rfl)
      · by_cases hdr : |e.clientX - x| > dragStartPx ∧
            |e.clientX - x| > |e.clientY - y| * axisLockRatio
        · match hu : e.slotUnder with
          | none =>
            have hfix : onGridPointerMove st e
                = { st with gesture := some ⟨true, pid, x, y, S, GestureMode.hdrag⟩ } := by
              simp [onGridPointerMove, hg, hp, hsc, hdr, hu]
            rw [hfix]
            exact ⟨GestureMode.hdrag, rfl, by simp⟩
          | some slot =>
            have hfix : onGridPointerMove st e
                = ⟨selectRange S slot, some ⟨true, pid, x, y, S, GestureMode.hdrag⟩⟩ := by
              simp [onGridPointerMove, hg, hp, hsc, hdr, hu]
            rw [hfix]
            exact ⟨GestureMode.hdrag, rfl, by simp⟩
        · have hfix : onGridPointerMove st e = st := by
            simp [onGridPointerMove, hg, hp, hsc, hdr]
          rw [hfix]
          exact ⟨_, hg, hsel⟩
  · have hfix : onGridPointerMove st e = st := by
      simp [onGridPointerMove, hg, hp]
    rw [hfix]
    exact ⟨_, hg, hsel⟩

theorem gestureShape_foldl (pid : Nat) (x y : ℚ) (S : Nat) :
    ∀ (es : List Sample) (st : AppState), GestureShape pid x y S st →
    GestureShape pid x y S (es.foldl onGridPointerMove st) := by
  intro es
  induction es with
  | nil => intro st h; exact h
  | cons e rest ih =>
    intro st h
    exact ih _ (gestureShape_step pid x y S st e h)

/-- In scroll mode every further pointer-move sample is ignored whole. -/
theorem onGridPointerMove_scroll_frozen (st : AppState) (g : Gesture) (e : Sample)
    (hg : st.gesture = some g) (hm : g.mode = GestureMode.scroll) :
    onGridPointerMove st e = st := by
  by_cases ha : g.active = false
  · simp [onGridPointerMove, hg, ha]
  · by_cases hp : e.pointerId ≠ g.pointerId
    · simp [onGridPointerMove, hg, ha, hp]
    · simp [onGridPointerMove, hg, ha, hp, hm]

theorem foldl_scroll_frozen : ∀ (more : List Sample) (st : AppState) (g : Gesture),
    st.gesture = some g → g.mode = GestureMode.scroll →
    more.foldl onGridPointerMove st = st := by
  intro more
  induction more with
  | nil => intro st g _ _; rfl
  | cons e rest ih =>
    intro st g hg hm
    rw [List.foldl_cons, onGridPointerMove_scroll_frozen st g e hg hm]
    exact ih st g hg hm

/-- C6: in an interaction started by a press at slot S, if after some
motion samples the recognizer is still pending and the next sample (of
the same pointer) has vertical travel above SCROLL_CANCEL_PX dominating
horizontal by AXIS_LOCK_RATIO, the recognizer moves to scroll mode, the
selection is still the single pressed slot {S}, and no later sample of
the interaction ever changes the selection. -/
theorem scrollCancelled_selection_frozen (st0 : AppState) (pid S : Nat) (x y : ℚ)
    (es : List Sample) (e : Sample) (more : List Sample)
    (hpend : ((es.foldl onGridPointerMove (onCellPointerDown pid x y S st0)).gesture.map
      Gesture.mode) = some GestureMode.pending)
    (hpid : e.pointerId = pid)
    (hdy : |e.clientY - y| > scrollCancelPx)
    (hdom : |e.clientY - y| > |e.clientX - x| * axisLockRatio) :
    ((onGridPointerMove (es.foldl onGridPointerMove (onCellPointerDown pid x y S st0))
        e).gesture.map Gesture.mode = some GestureMode.scroll) ∧
    (onGridPointerMove (es.foldl onGridPointerMove (onCellPointerDown pid x y S st0))
        e).selected = {S} ∧
    (more.foldl onGridPointerMove
      (onGridPointerMove (es.foldl onGridPointerMove (onCellPointerDown pid x y S st0))
        e)).selected = {S} := by
  have hshape0 : GestureShape pid x y S (onCellPointerDown pid x y S st0) :=
    ⟨GestureMode.pending, rfl, fun _ => rfl⟩
  obtain ⟨m, hg, hsel⟩ := gestureShape_foldl pid x y S es _ hshape0
  have hm : m = GestureMode.pending := by
    rw [hg] at hpend
    simpa using hpend
  subst hm
  have hselA : (es.foldl onGridPointerMove (onCellPointerDown pid x y S st0)).selected = {S} :=
    hsel (Or.inl rfl)
  have hstep : onGridPointerMove (es.foldl onGridPointerMove (onCellPointerDown pid x y S st0)) e
      = { es.foldl onGridPointerMove (onCellPointerDown pid x y S st0) with
          gesture := some ⟨true, pid, x, y, S, GestureMode.scroll⟩ } := by
    simp [onGridPointerMove, hg, hpid, hdy, hdom]
  refine ⟨by rw [hstep]; rfl, ?_, ?_⟩
  · rw [hstep]
    exact hselA
  · rw [hstep]
    rw [foldl_scroll_frozen more _ ⟨true, pid, x, y, S, GestureMode.scroll⟩ rfl rfl]
    exact hselA

/-- C6 witness: press at slot 10, then a vertical sample (dy = 9) puts
the recognizer into scroll mode with selection {10}, and a later sample
far to the right over slot 20 leaves the selection {10}. -/
theorem scrollCancelled_selection_frozen_witness :
    ((onGridPointerMove (([] : List Sample).foldl onGridPointerMove
        (onCellPointerDown 1 0 0 10 ⟨∅, none⟩))
        ⟨1, 0, 9, none⟩).gesture.map Gesture.mode = some GestureMode.scroll) ∧
    (onGridPointerMove (([] : List Sample).foldl onGridPointerMove
        (onCellPointerDown 1 0 0 10 ⟨∅, none⟩)) ⟨1, 0, 9, none⟩).selected = {10} ∧
    (([⟨1, 50, 9, some 20⟩] : List Sample).foldl onGridPointerMove
      (onGridPointerMove (([] : List Sample).foldl onGridPointerMove
        (onCellPointerDown 1 0 0 10 ⟨∅, none⟩)) ⟨1, 0, 9, none⟩)).selected = {10} :=
  scrollCancelled_selection_frozen ⟨∅, none⟩ 1 10 0 0 [] ⟨1, 0, 9, none⟩
    [⟨1, 50, 9, some 20⟩] rfl rfl (by norm_num [scrollCancelPx])
    (by norm_num [axisLockRatio])

/-! ### Persistence model and day-log operations
(App.tsx lines 27-32, 219-229, 844-882, 933-954)

The localforage store becomes a record of optional persisted values plus
a map from day keys to stored raw day shapes; a raw day may be malformed
(slots missing), which loadOrInitDay validates. -/

/-- Embedding of ThemeMode. -/
inductive ThemeMode where
  | system
  | light
  | dark
deriving DecidableEq

/-- Embedding of Settings. -/
structure Settings where
  nightStart : String
  nightEnd : String
  nightDisplay30 : Bool
  themeMode : ThemeMode
deriving DecidableEq

/-- Untrusted day shape as read from the store or an import payload:
slots may be absent. -/
structure RawDay where
  dateKey : String
  slots : Option (List (Option String))
deriving DecidableEq

/-- Persisted state as importJSON sees it: the settings, categories,
events, recentEvents keys plus the day:<dateKey> keys. -/
structure Store where
  settings : Option Settings
  categories : Option (List Category)
  events : Option (List EventTag)
  recentEvents : Option (List String)
  days : String → Option RawDay

/-- Shape of a parsed import payload (each top-level key optional). -/
structure ImportPayload where
  settings : Option Settings
  categories : Option (List Category)
  events : Option (List EventTag)
  recentEvents : Option (List String)
  day : Option RawDay

/-- Fresh all-empty 96-slot day log. -/
def freshDay (dateKey : String) : DayLog :=
  ⟨dateKey, List.replicate 96 none⟩

/-- Embedding of loadOrInitDay from App.tsx: the stored structure is used
only when d?.slots?.length === 96, otherwise a fresh log replaces it. -/
def loadOrInitDay (stored : Option RawDay) (dateKey : String) : DayLog :=
  match stored with
  | some d =>
    match d.slots with
    | some sl => if sl.length = 96 then ⟨d.dateKey, sl⟩ else freshDay dateKey
    | none => freshDay dateKey
  | none => freshDay dateKey

/-- Embedding of applyEvent from App.tsx restricted to the day-log write:
every selected index in [0,96) receives the event id (or null).  The
selection Set is iterated in ascending order, the insertion order
selectRange produces. -/
def applyEvent (day : DayLog) (selected : Finset Nat) (eventId : Option String) : DayLog :=
  if selected.card = 0 then day
  else
    { day with
      slots := (selected.sort (· ≤ ·)).foldl
        (fun sl idx => if idx < 96 then sl.set idx eventId else sl) day.slots }

/-- Embedding of importJSON from App.tsx: the whole payload is rejected
unless data.day.slots exists with exactly 96 entries; only then are the
(present) sections written, the day under day:<dateKey>. -/
def importJSON (p : ImportPayload) (st : Store) : Store :=
  match p.day with
  | none => st
  | some d =>
    match d.slots with
    | none => st
    | some sl =>
      if sl.length ≠ 96 then st
      else
        { settings :=
            match p.settings with
            | some s => some s
            | none => st.settings
          categories :=
            match p.categories with
            | some c => some c
            | none => st.categories
          events :=
            match p.events with
            | some e => some e
            | none => st.events
          recentEvents :=
            match p.recentEvents with
            | some r => some r
            | none => st.recentEvents
          days := fun k => if k = d.dateKey then some ⟨d.dateKey, some sl⟩ else st.days k }

/-- Ids of the fixed-flagged events (the fixedSet of App.tsx). -/
def fixedIds (events : List EventTag) : List String :=
  (events.filter (fun e => e.fixed)).map (fun e => e.id)

/-- Position-indexed map used to express the per-index loop of
copyFixedFromPrevDay. -/
def mapIdxFrom (f : Nat → Option String → Option String) :
    Nat → List (Option String) → List (Option String)
  | _, [] => []
  | i, x :: xs => f i x :: mapIdxFrom f (i + 1) xs

/-- Embedding of copyFixedFromPrevDay from App.tsx: the loop over
i in [0,96) writes prev.slots[i] into an empty slot i exactly when that
previous value is truthy and its event is fixed; with a 96-entry slot
array the loop is this position-indexed map. -/
def copyFixedFromPrevDay (events : List EventTag) (day prev : DayLog) : DayLog :=
  { day with
    slots := mapIdxFrom (fun i s =>
      if slotTruthy s then s
      else
        match prev.slots.getD i none with
        | some e => if e ≠ "" ∧ e ∈ fixedIds events then some e else s
        | none => s) 0 day.slots }

theorem mapIdxFrom_length (f : Nat → Option String → Option String) :
    ∀ (l : List (Option String)) (i : Nat), (mapIdxFrom f i l).length = l.length := by
  intro l
  induction l with
  | nil => intro i; rfl
  | cons x xs ih => intro i; simp [mapIdxFrom, ih]

theorem mapIdxFrom_getD (f : Nat → Option String → Option String) :
    ∀ (l : List (Option String)) (i j : Nat), j < l.length →
    (mapIdxFrom f i l).getD j none = f (i + j) (l.getD j none) := by
  intro l
  induction l with
  | nil => intro i j h; simp at h
  | cons x xs ih =>
    intro i j h
    match j with
    | 0 => simp [mapIdxFrom]
    | j + 1 =>
      simp only [mapIdxFrom, List.getD_cons_succ]
      rw [ih (i + 1) j (by simpa using h)]
      ring_nf

theorem foldl_set_length (eventId : Option String) :
    ∀ (l : List Nat) (sl : List (Option String)),
    (l.foldl (fun sl idx => if idx < 96 then sl.set idx eventId else sl) sl).length
      = sl.length := by
  intro l
  induction l with
  | nil => intro sl; rfl
  | cons idx rest ih =>
    intro sl
    rw [List.foldl_cons, ih]
    by_cases h : idx < 96 <;> simp [h]

theorem mem_fixedIds (events : List EventTag) (e : String) :
    e ∈ fixedIds events ↔ ∃ ev ∈ events, ev.id = e ∧ ev.fixed = true := by
  simp only [fixedIds, List.mem_map, List.mem_filter]
  constructor
  · rintro ⟨ev, ⟨hev, hfix⟩, hid⟩
    exact ⟨ev, hev, hid, hfix⟩
  · rintro ⟨ev, hev, hid, hfix⟩
    exact ⟨ev, ⟨hev, hfix⟩, hid⟩

/-- C8: importJSON is atomic — when day.slots is missing (or the day is)
or its length differs from 96 the store is returned unchanged with no
write at all; when validation passes, day:<dateKey> is written. -/
theorem importJSON_atomic (p : ImportPayload) (st : Store) :
    ((p.day = none ∨ ∃ d, p.day = some d ∧
        (d.slots = none ∨ ∃ sl, d.slots = some sl ∧ sl.length ≠ 96)) →
      importJSON p st = st) ∧
    (∀ d sl, p.day = some d → d.slots = some sl → sl.length = 96 →
      (importJSON p st).days d.dateKey = some ⟨d.dateKey, some sl⟩) := by
  constructor
  · rintro (hd | ⟨d, hd, hsl | ⟨sl, hsl, hlen⟩⟩)
    · simp [importJSON, hd]
    · simp [importJSON, hd, hsl]
    · simp [importJSON, hd, hsl, hlen]
  · intro d sl hd hsl hlen
    simp [importJSON, hd, hsl, hlen]

/-- C8 witness: a payload whose day has 2 slots is rejected leaving a
concrete store untouched, and a payload with 96 slots writes its day. -/
theorem importJSON_atomic_witness :
    importJSON ⟨none, none, none, none, some ⟨("2024-01-01"), some [none, none]⟩⟩
        ⟨none, none, none, none, fun _ => none⟩
      = ⟨none, none, none, none, fun _ => none⟩ ∧
    (importJSON ⟨none, none, none, none, some ⟨("2024-01-01"), some (List.replicate 96 none)⟩⟩
        ⟨none, none, none, none, fun _ => none⟩).days ("2024-01-01")
      = some ⟨("2024-01-01"), some (List.replicate 96 none)⟩ := by
  constructor
  · exact (importJSON_atomic ⟨none, none, none, none, some ⟨("2024-01-01"), some [none, none]⟩⟩
      ⟨none, none, none, none, fun _ => none⟩).1
      (Or.inr ⟨_, rfl, Or.inr ⟨[none, none], rfl, by decide⟩⟩)
  · exact (importJSON_atomic ⟨none, none, none, none,
      some ⟨("2024-01-01"), some (List.replicate 96 none)⟩⟩
      ⟨none, none, none, none, fun _ => none⟩).2 _ _ rfl rfl (by simp)

/-- C9: every day log handed out has exactly 96 slots — loadOrInitDay
returns the stored log only when its slots have length 96, otherwise a
fresh all-empty 96-slot log; and the day-mutating writes (applyEvent,
copyFixedFromPrevDay), writing only inside [0,96), preserve the
96-slot length. -/
theorem dayLog_length_invariant :
    (∀ (stored : Option RawDay) (key : String),
      (loadOrInitDay stored key).slots.length = 96) ∧
    (∀ (stored : Option RawDay) (key : String),
      (∃ d sl, stored = some d ∧ d.slots = some sl ∧ sl.length = 96 ∧
        loadOrInitDay stored key = ⟨d.dateKey, sl⟩) ∨
      loadOrInitDay stored key = freshDay key) ∧
    (∀ (day : DayLog) (selected : Finset Nat) (eventId : Option String),
      day.slots.length = 96 → (applyEvent day selected eventId).slots.length = 96) ∧
    (∀ (events : List EventTag) (day prev : DayLog),
      day.slots.length = 96 →
      (copyFixedFromPrevDay events day prev).slots.length = 96) := by
  refine ⟨?_, ?_, ?_, ?_⟩
  · intro stored key
    match stored with
    | none => simp [loadOrInitDay, freshDay]
    | some d =>
      match hsl : d.slots with
      | none => simp [loadOrInitDay, hsl, freshDay]
      | some sl =>
        by_cases h : sl.length = 96
        · simp [loadOrInitDay, hsl, h]
        · simp [loadOrInitDay, hsl, h, freshDay]
  · intro stored key
    match stored with
    | none => exact Or.inr rfl
    | some d =>
      match hsl : d.slots with
      | none => simp [loadOrInitDay, hsl]
      | some sl =>
        by_cases h : sl.length = 96
        · exact Or.inl ⟨d, sl, rfl, hsl, h, by simp [loadOrInitDay, hsl, h]⟩
        · exact Or.inr (by simp [loadOrInitDay, hsl, h])
  · intro day selected eventId h
    by_cases hc : selected.card = 0
    · simpa [applyEvent, hc] using h
    · simp only [applyEvent, hc, if_false]
      rw [foldl_set_length]
      exact h
  · intro events day prev h
    simp only [copyFixedFromPrevDay]
    rw [mapIdxFrom_length]
    exact h

/-- C9 witness: a malformed 2-slot stored day is replaced by a fresh
96-slot log, and applyEvent on a fresh log keeps 96 slots. -/
theorem dayLog_length_invariant_witness :
    loadOrInitDay (some ⟨("2024-01-02"), some [none, none]⟩) ("2024-01-02")
        = freshDay ("2024-01-02") ∧
    (applyEvent (freshDay ("2024-01-02")) {3} (some ("evt"))).slots.length = 96 := by
  constructor
  · rcases (dayLog_length_invariant.2.1 (some ⟨("2024-01-02"), some [none, none]⟩)
      ("2024-01-02")) with ⟨d, sl, hd, hsl, hlen, _⟩ | hfresh
    · injection hd with hd2
      subst hd2
      injection hsl with hsl2
      subst hsl2
      exact absurd hlen (by decide)
    · exact hfresh
  · exact dayLog_length_invariant.2.2.1 (freshDay ("2024-01-02")) {3} (some ("evt"))
      (by simp [freshDay])

/-- C10: copyFixedFromPrevDay never changes a non-empty slot; an empty
slot i becomes the previous day's slot i exactly when that value is a
truthy event id carrying the fixed flag in the current event list, and
otherwise keeps its value. -/
theorem copyFixedFromPrevDay_frame (events : List EventTag) (day prev : DayLog)
    (h : day.slots.length = 96) (i : Nat) (hi : i < 96) :
    (slotTruthy (day.slots.getD i none) = true →
      (copyFixedFromPrevDay events day prev).slots.getD i none = day.slots.getD i none) ∧
    (slotTruthy (day.slots.getD i none) = false →
      ∀ e : String, prev.slots.getD i none = some e → e ≠ "" →
        (∃ ev ∈ events, ev.id = e ∧ ev.fixed = true) →
        (copyFixedFromPrevDay events day prev).slots.getD i none = some e) ∧
    (slotTruthy (day.slots.getD i none) = false →
      (¬ ∃ e : String, prev.slots.getD i none = some e ∧ e ≠ "" ∧
        ∃ ev ∈ events, ev.id = e ∧ ev.fixed = true) →
      (copyFixedFromPrevDay events day prev).slots.getD i none = day.slots.getD i none) := by
  have hlt : i < day.slots.length := by omega
  have hget := mapIdxFrom_getD (fun i s =>
      if slotTruthy s then s
      else
        match prev.slots.getD i none with
        | some e => if e ≠ "" ∧ e ∈ fixedIds events then some e else s
        | none => s) day.slots 0 i hlt
  rw [Nat.zero_add] at hget
  have hslots : (copyFixedFromPrevDay events day prev).slots.getD i none
      = (if slotTruthy (day.slots.getD i none) then day.slots.getD i none
        else
          match prev.slots.getD i none with
          | some e => if e ≠ "" ∧ e ∈ fixedIds events then some e
              else day.slots.getD i none
          | none => day.slots.getD i none) := hget
  refine ⟨?_, ?_, ?_⟩
  · intro ht
    rw [hslots, ht]
    simp
  · intro ht e hpe hne hfix
    rw [hslots, ht]
    simp only [Bool.false_eq_true, if_false, hpe]
    rw [if_pos ⟨hne, (mem_fixedIds events e).mpr hfix⟩]
  · intro ht hnofix
    rw [hslots, ht]
    simp only [Bool.false_eq_true, if_false]
    match hpe : prev.slots.getD i none with
    | none => rfl
    | some e =>
      change (if e ≠ "" ∧ e ∈ fixedIds events then some e
          else day.slots.getD i none) = day.slots.getD i none
      rw [if_neg]
      rintro ⟨hne, hmem⟩
      exact hnofix ⟨e, hpe, hne, (mem_fixedIds events e).mp hmem⟩

/-- C10 witness: with one fixed event evt, an empty slot 0 receives the
previous day's evt while the occupied slot 1 keeps its value. -/
theorem copyFixedFromPrevDay_frame_witness :
    slotTruthy ((freshDay ("2024-01-03")).slots.getD 0 none) = false ∧
    (copyFixedFromPrevDay [⟨("evt"), ("cat"), none, true⟩] (freshDay ("2024-01-03"))
        ⟨("2024-01-02"), some ("evt") :: List.replicate 95 none⟩).slots.getD 0 none
      = some ("evt") := by
  refine ⟨by decide, ?_⟩
  exact (copyFixedFromPrevDay_frame [⟨("evt"), ("cat"), none, true⟩] (freshDay ("2024-01-03"))
      ⟨("2024-01-02"), some ("evt") :: List.replicate 95 none⟩ (by simp [freshDay]) 0
      (by decide)).2.1 (by decide) ("evt") rfl (by decide)
      ⟨⟨("evt"), ("cat"), none, true⟩, by simp⟩

/-! ### Calendar arithmetic (App.tsx lines 52-60)

addDays parses a dateKey, builds a JavaScript Date, shifts it with
setDate and formats it back with toDateKey.  The Date library is modelled
from ECMAScript semantics: a proleptic-Gregorian day count (MakeDay /
setDate normalization, here in the March-based form so that the leap day
closes a year), plus the legacy rule that constructor years 0..99 mean
1900+year (MakeFullYear).  All divisions below are by positive literals,
where Lean's Int division is the floor division ECMAScript uses. -/

/-- Number of leap days before March 1 of March-year y. -/
def leapsTo (y : Int) : Int :=
  y / 4 - y / 100 + y / 400

/-- Day number (relative to 0000-03-01) of March 1 of March-year y. -/
def marchYearStart (y : Int) : Int :=
  365 * y + leapsTo y

/-- Day offset of March-month mp (0 = March .. 11 = February) from the
start of its March year. -/
def monthOffset (mp : Int) : Int :=
  (153 * mp + 2) / 5

/-- Gregorian leap year (ECMAScript DaysInYear = 366). -/
def gregLeap (y : Int) : Prop :=
  (y % 4 = 0 ∧ ¬ (y % 100 = 0)) ∨ y % 400 = 0

instance decidableGregLeap (y : Int) : Decidable (gregLeap y) :=
  inferInstanceAs (Decidable ((y % 4 = 0 ∧ ¬ (y % 100 = 0)) ∨ y % 400 = 0))

/-- Month lengths of the proleptic Gregorian calendar (ECMAScript
DaysInMonth), month 1..12 of calendar year y. -/
def daysInMonthGreg (y m : Int) : Int :=
  if m = 1 ∨ m = 3 ∨ m = 5 ∨ m = 7 ∨ m = 8 ∨ m = 10 ∨ m = 12 then 31
  else if m = 2 then (if gregLeap y then 29 else 28)
  else 30

/-- Modelled ECMAScript MakeDay composed with the epoch shift: the day
number of civil date (y, m, d) with months 1..12; d may lie outside the
month, normalizing as setDate does (the formula is affine in d). -/
def daysFromCivil (y m d : Int) : Int :=
  let yq := if m ≤ 2 then y - 1 else y
  let mp := if m ≤ 2 then m + 9 else m - 3
  marchYearStart yq + monthOffset mp + (d - 1) - 719468

/-- March year containing day z (z relative to 0000-03-01): a floor-based
first guess corrected by at most one. -/
def yearFromDays (z : Int) : Int :=
  let y := 400 * z / 146097
  if z < marchYearStart y then y - 1
  else if marchYearStart (y + 1) ≤ z then y + 1
  else y

/-- Modelled ECMAScript YearFromTime/MonthFromTime/DateFromTime: the
civil date of day number z. -/
def civilFromDays (z : Int) : Int × Int × Int :=
  let zq := z + 719468
  let yq := yearFromDays zq
  let doy := zq - marchYearStart yq
  let mp := (5 * doy + 2) / 153
  let d := doy - monthOffset mp + 1
  let m := if mp < 10 then mp + 3 else mp - 9
  (if m ≤ 2 then yq + 1 else yq, m, d)

/-- ECMAScript MakeFullYear as applied by the Date constructor: years
0..99 are read as 1900+year. -/
def makeFullYear (y : Int) : Int :=
  if 0 ≤ y ∧ y ≤ 99 then y + 1900 else y

/-- Embedding of toDateKey from App.tsx: unpadded year, zero-padded
month and day, joined with dashes. -/
def toDateKey (y m d : Int) : String :=
  intRepr y ++ ("-") ++ pad2 m.toNat ++ ("-") ++ pad2 d.toNat

/-- Embedding of the dateKey.split("-").map(Number) destructuring used
by addDays and its siblings. -/
def parseDateKey (s : String) : Int × Int × Int :=
  let parts := (splitChar '-' s).map (fun t => (parseNatStr t : Int))
  (parts.getD 0 0, parts.getD 1 0, parts.getD 2 0)

/-- Embedding of addDays from App.tsx over the modelled Date library:
new Date(y, m-1, d) then setDate(getDate() + delta) then toDateKey. -/
def addDays (dateKey : String) (delta : Int) : String :=
  let p := parseDateKey dateKey
  let n := daysFromCivil (makeFullYear p.1) p.2.1 p.2.2 + delta
  let c := civilFromDays n
  toDateKey c.1 c.2.1 c.2.2

example : addDays ("2024-02-28") 1 = ("2024-02-29") := by decide
example : addDays ("2023-12-31") 1 = ("2024-01-01") := by decide
example : addDays ("2024-03-01") (-1) = ("2024-02-29") := by decide

/-- The scan guess 400*z/146097 brackets the true March year. -/
theorem yearFromDays_spec (z : Int) :
    marchYearStart (yearFromDays z) ≤ z ∧ z < marchYearStart (yearFromDays z + 1) := by
  simp only [yearFromDays, marchYearStart, leapsTo]
  split
  · constructor <;> omega
  · split
    · constructor <;> omega
    · constructor <;> omega

theorem marchYearStart_mono {y t : Int} (h : y ≤ t) :
    marchYearStart y ≤ marchYearStart t := by
  unfold marchYearStart leapsTo
  omega

theorem yearFromDays_eq {y z : Int} (h1 : marchYearStart y ≤ z)
    (h2 : z < marchYearStart (y + 1)) : yearFromDays z = y := by
  obtain ⟨b1, b2⟩ := yearFromDays_spec z
  rcases lt_trichotomy (yearFromDays z) y with hlt | heq | hgt
  · have := marchYearStart_mono (by omega : yearFromDays z + 1 ≤ y)
    omega
  · exact heq
  · have := marchYearStart_mono (by omega : y + 1 ≤ yearFromDays z)
    omega

/-- Length of a March year in days: 366 exactly when its closing
February (of calendar year y+1) is leap. -/
theorem marchYearStart_succ (y : Int) :
    marchYearStart (y + 1) = marchYearStart y + 365 + (if gregLeap (y + 1) then 1 else 0) := by
  by_cases hl : gregLeap (y + 1)
  · rw [if_pos hl]
    unfold gregLeap at hl
    unfold marchYearStart leapsTo
    omega
  · rw [if_neg hl]
    unfold gregLeap at hl
    push_neg at hl
    unfold marchYearStart leapsTo
    omega

/-- Converting a day number to a civil date and back is the identity. -/
theorem daysFromCivil_civilFromDays (z : Int) :
    daysFromCivil (civilFromDays z).1 (civilFromDays z).2.1 (civilFromDays z).2.2 = z := by
  obtain ⟨h1, h2⟩ := yearFromDays_spec (z + 719468)
  have hlen : marchYearStart (yearFromDays (z + 719468) + 1)
      ≤ marchYearStart (yearFromDays (z + 719468)) + 366 := by
    rw [marchYearStart_succ]
    split <;> omega
  simp only [civilFromDays, daysFromCivil, monthOffset]
  repeat' split
  all_goals simp only [add_sub_cancel_right, sub_add_cancel]
  all_goals omega

/-- The civil date produced from any day number has a month in 1..12 and
a day in 1..31. -/
theorem civilFromDays_bounds (z : Int) :
    1 ≤ (civilFromDays z).2.1 ∧ (civilFromDays z).2.1 ≤ 12 ∧
    1 ≤ (civilFromDays z).2.2 ∧ (civilFromDays z).2.2 ≤ 31 := by
  obtain ⟨h1, h2⟩ := yearFromDays_spec (z + 719468)
  have hlen : marchYearStart (yearFromDays (z + 719468) + 1)
      ≤ marchYearStart (yearFromDays (z + 719468)) + 366 := by
    rw [marchYearStart_succ]
    split <;> omega
  simp only [civilFromDays, monthOffset]
  repeat' split
  all_goals refine ⟨by omega, by omega, by omega, by omega⟩

/-- Converting a valid civil date to its day number and back is the
identity. -/
theorem civilFromDays_daysFromCivil (y m d : Int) (hm1 : 1 ≤ m) (hm2 : m ≤ 12)
    (hd1 : 1 ≤ d) (hd2 : d ≤ daysInMonthGreg y m) :
    civilFromDays (daysFromCivil y m d) = (y, m, d) := by
  obtain ⟨n, hn⟩ : ∃ n, daysFromCivil y m d = n := ⟨_, rfl⟩
  rw [hn]
  by_cases hm3 : m ≤ 2
  · have hn' : n = marchYearStart (y - 1) + (153 * (m + 9) + 2) / 5 + (d - 1) - 719468 := by
      rw [← hn]
      simp only [daysFromCivil, monthOffset, if_pos hm3]
    have hsucc := marchYearStart_succ (y - 1)
    rw [show y - 1 + 1 = y by ring] at hsucc
    rcases (show m = 1 ∨ m = 2 from by omega) with rfl | rfl
    · norm_num [daysInMonthGreg] at hd2
      have hyLen : marchYearStart (y - 1) + 365 ≤ marchYearStart y := by
        split at hsucc <;> omega
      have hz : yearFromDays (n + 719468) = y - 1 := by
        apply yearFromDays_eq
        · omega
        · rw [show y - 1 + 1 = y by ring]
          omega
      simp only [civilFromDays, monthOffset, hz, Prod.mk.injEq]
      repeat' split
      all_goals refine ⟨by omega, by omega, by omega⟩
    · norm_num [daysInMonthGreg] at hd2
      by_cases hgl : gregLeap y
      · rw [if_pos hgl] at hsucc
        rw [if_pos hgl] at hd2
        have hz : yearFromDays (n + 719468) = y - 1 := by
          apply yearFromDays_eq
          · omega
          · rw [show y - 1 + 1 = y by ring]
            omega
        simp only [civilFromDays, monthOffset, hz, Prod.mk.injEq]
        repeat' split
        all_goals refine ⟨by omega, by omega, by omega⟩
      · rw [if_neg hgl] at hsucc
        rw [if_neg hgl] at hd2
        have hz : yearFromDays (n + 719468) = y - 1 := by
          apply yearFromDays_eq
          · omega
          · rw [show y - 1 + 1 = y by ring]
            omega
        simp only [civilFromDays, monthOffset, hz, Prod.mk.injEq]
        repeat' split
        all_goals refine ⟨by omega, by omega, by omega⟩
  · have hn' : n = marchYearStart y + (153 * (m - 3) + 2) / 5 + (d - 1) - 719468 := by
      rw [← hn]
      simp only [daysFromCivil, monthOffset, if_neg hm3]
    have hyLen : marchYearStart y + 365 ≤ marchYearStart (y + 1) := by
      rw [marchYearStart_succ]
      split <;> omega
    have hm4 : 3 ≤ m := by omega
    clear hn hm3
    interval_cases m
    all_goals (
      norm_num [daysInMonthGreg] at hd2
      have hz : yearFromDays (n + 719468) = y := by
        apply yearFromDays_eq
        · omega
        · omega
      simp only [civilFromDays, monthOffset, hz, Prod.mk.injEq]
      repeat' split
      all_goals refine ⟨by omega, by omega, by omega⟩)

theorem natRepr_no_dash (n : Nat) : '-' ∉ (natRepr n).data := by
  unfold natRepr
  by_cases h0 : n = 0
  · rw [if_pos h0]
    decide
  · rw [if_neg h0]
    intro hmem
    rw [List.mem_map] at hmem
    obtain ⟨dd, hdd, heq⟩ := hmem
    have hlt : dd < 10 := natDigitsFuel_lt_ten _ _ _ (List.mem_reverse.mp hdd)
    exact digitChar_ne dd hlt '-' (Or.inr (by decide)) heq

theorem pad2_no_dash (n : Nat) : '-' ∉ (pad2 n).data := by
  unfold pad2
  by_cases h : (natRepr n).length < 2
  · rw [if_pos h, String.data_append]
    intro hmem
    rcases List.mem_append.mp hmem with hmem | hmem
    · simp at hmem
    · exact natRepr_no_dash n hmem
  · rw [if_neg h]
    exact natRepr_no_dash n

theorem parseNatStr_pad2 (n : Nat) : parseNatStr (pad2 n) = n := by
  unfold pad2
  by_cases h : (natRepr n).length < 2
  · rw [if_pos h]
    show parseNatChars (((("0") : String)) ++ natRepr n).data = n
    rw [String.data_append]
    show parseNatChars ('0' :: (natRepr n).data) = n
    unfold parseNatChars
    rw [List.foldl_cons]
    have h0 : (0 : Nat) * 10 + charVal '0' = 0 := by decide
    rw [h0]
    exact parseNatStr_natRepr n
  · rw [if_neg h]
    exact parseNatStr_natRepr n

theorem parseDateKey_toDateKey (y m d : Int) (hy : 0 ≤ y) (hm : 0 ≤ m) (hd : 0 ≤ d) :
    parseDateKey (toDateKey y m d) = (y, m, d) := by
  have hyrep : intRepr y = natRepr y.toNat := by
    unfold intRepr
    rw [if_neg (by omega)]
  have hdata : (toDateKey y m d).data
      = (natRepr y.toNat).data ++ '-' :: ((pad2 m.toNat).data ++ '-' :: (pad2 d.toNat).data) := by
    unfold toDateKey
    rw [hyrep]
    simp only [String.data_append]
    simp
  have hsplit : splitCharList '-' (toDateKey y m d).data
      = [(natRepr y.toNat).data, (pad2 m.toNat).data, (pad2 d.toNat).data] := by
    rw [hdata, splitCharList_append '-' _ _ (natRepr_no_dash y.toNat),
      splitCharList_append '-' _ _ (pad2_no_dash m.toNat),
      splitCharList_no_sep '-' _ (pad2_no_dash d.toNat)]
  unfold parseDateKey splitChar
  rw [hsplit]
  simp only [List.map_cons, List.map_nil, List.getD_cons_zero, List.getD_cons_succ]
  show ((parseNatStr (String.mk (natRepr y.toNat).data) : Int),
      (parseNatStr (String.mk (pad2 m.toNat).data) : Int),
      (parseNatStr (String.mk (pad2 d.toNat).data) : Int)) = (y, m, d)
  show ((parseNatStr (natRepr y.toNat) : Int), (parseNatStr (pad2 m.toNat) : Int),
      (parseNatStr (pad2 d.toNat) : Int)) = (y, m, d)
  rw [parseNatStr_natRepr, parseNatStr_pad2, parseNatStr_pad2,
    Int.toNat_of_nonneg hy, Int.toNat_of_nonneg hm, Int.toNat_of_nonneg hd]

/-- One application of addDays on a canonical key shifts the civil date
by delta through the day-number arithmetic (for years ≥ 100, where the
Date constructor's 1900 rule does not fire). -/
theorem addDays_toDateKey (y m d delta : Int) (hy : 100 ≤ y) (hm : 0 ≤ m) (hd : 0 ≤ d) :
    addDays (toDateKey y m d) delta
      = toDateKey (civilFromDays (daysFromCivil y m d + delta)).1
          (civilFromDays (daysFromCivil y m d + delta)).2.1
          (civilFromDays (daysFromCivil y m d + delta)).2.2 := by
  simp only [addDays]
  rw [parseDateKey_toDateKey y m d (by omega) hm hd]
  rw [show makeFullYear y = y from by unfold makeFullYear; rw [if_neg (by omega)]]

/-- C7 (amended): for a canonical dateKey of a valid Gregorian date with
year at least 100 and any delta for which the shifted date's year is
still at least 100 (inside the range where the modelled ECMAScript Date
is exact), addDays (addDays key delta) (-delta) returns the key, with
month and year rollover per the proleptic Gregorian calendar. -/
theorem addDays_roundtrip (y m d delta : Int) (hy : 100 ≤ y)
    (hm1 : 1 ≤ m) (hm2 : m ≤ 12) (hd1 : 1 ≤ d) (hd2 : d ≤ daysInMonthGreg y m)
    (hy2 : 100 ≤ (civilFromDays (daysFromCivil y m d + delta)).1) :
    addDays (addDays (toDateKey y m d) delta) (-delta) = toDateKey y m d := by
  obtain ⟨hb1, hb2, hb3, hb4⟩ := civilFromDays_bounds (daysFromCivil y m d + delta)
  rw [addDays_toDateKey y m d delta hy (by omega) (by omega)]
  rw [addDays_toDateKey _ _ _ (-delta) hy2 (by omega) (by omega)]
  rw [daysFromCivil_civilFromDays]
  rw [show daysFromCivil y m d + delta + -delta = daysFromCivil y m d by ring]
  rw [civilFromDays_daysFromCivil y m d hm1 hm2 hd1 hd2]

/-- C7 witness: a leap-day key shifted 300 days forward and back. -/
theorem addDays_roundtrip_witness :
    toDateKey 2024 2 29 = ("2024-02-29") ∧
    addDays (addDays (toDateKey 2024 2 29) 300) (-300) = toDateKey 2024 2 29 := by
  constructor
  · decide
  · exact addDays_roundtrip 2024 2 29 300 (by norm_num) (by norm_num) (by norm_num)
      (by norm_num) (by decide) (by decide)

/-- C7 counterexample: the claim fails as stated because ECMAScript's
Date constructor reads years 0..99 as 1900+year.  "100-01-01" is the
canonical key of the valid date 100-01-01, yet one day back gives
"99-12-31", and re-parsing that turns year 99 into 1999, so the return
trip lands on "2000-01-01". -/
theorem addDays_roundtrip_cex :
    toDateKey 100 1 1 = ("100-01-01") ∧
    addDays (("100-01-01")) (-1) = ("99-12-31") ∧
    addDays (addDays (("100-01-01")) (-1)) 1 = ("2000-01-01") ∧
    addDays (addDays (("100-01-01")) (-1)) 1 ≠ ("100-01-01") := by
  refine ⟨by decide, by decide, by decide, by decide⟩

end DayGrid
